import Mathlib

/-!
A shallow embedding of the command-line option framework of this repository
(src/imports/CommandLine/CommandLine.h and src/imports/CommandLine/EnumNameMap.h),
together with theorems checking the specification's claims about it.

Modelling conventions:
- argv is a `List String` (the C null terminator is the end of the list; the
  null pointer returned when `*argv` runs out is modelled by the empty-list
  case at each use site).
- `std::map` is modelled as an association list.  The source only iterates its
  maps when rendering help text, which no claim touches, so the entry order
  inside the association list is irrelevant here; only membership, lookup and
  size are modelled.  `std::map::insert` (used by the map range constructor)
  keeps the first binding of a key; `operator[]` overwrites.
- `istringstream >> int` is modelled by `extractInt`: skip leading stream
  whitespace, optional sign, then a digit prefix.  On a failed extraction the
  stored value becomes 0 (C++11 `num_get` behaviour).  `ss.bad()` is false for
  every such extraction (badbit needs an internal stream failure, which a plain
  `istringstream` extraction never produces), so `readValueFrom` is modelled as
  returning true for every non-null, non-empty token, exactly as the source
  behaves.  Integer overflow is not modelled; no claim involves it.
- Enumerated values are modelled as `Nat` (a C++ enum class value is a scalar);
  `EnumNameMap::Map` itself stays generic in the value type `E`.
- Option variants carry only the state the claims touch (names, `specified`,
  the bound value/list, the list minimum, the enum name map).  Help-text
  members (`helpText`, `UsageSuffix`, `HelpSuffix`, `ExtraHelp`) are omitted:
  no claim mentions help rendering.
-/

namespace EnumNameMap

/-- The sentinel returned by `Map::Name` for values absent from the map
(`EnumNameMap::UnknownStr`). -/
def unknownStr : String := "<unknown>"

/-- First-match lookup in an association list (`std::map::find`). -/
def assocFind {K V : Type} [DecidableEq K] : List (K × V) → K → Option V
  | [], _ => none
  | p :: rest, k => if p.1 = k then some p.2 else assocFind rest k

/-- `std::map::insert` semantics: a key already present keeps its old value. -/
def insertKeep {K V : Type} [DecidableEq K] (l : List (K × V)) (k : K) (v : V) :
    List (K × V) :=
  match assocFind l k with
  | some _ => l
  | none => l ++ [(k, v)]

/-- `std::map::operator[]` plus assignment: a key already present is overwritten. -/
def insertOver {K V : Type} [DecidableEq K] (l : List (K × V)) (k : K) (v : V) :
    List (K × V) :=
  match assocFind l k with
  | some _ => l.map (fun p => if p.1 = k then (k, v) else p)
  | none => l ++ [(k, v)]

/-- `EnumNameMap::Map<E>`: the two directional maps. -/
structure Map (E : Type) where
  valToName : List (E × String)
  nameToVal : List (String × E)
deriving DecidableEq

/-- The `Map` constructor: `valToName` is range-constructed from the pair list
(`insert`, first binding wins), then `nameToVal` is filled by iterating
`valToName` with `operator[]` (overwrite). -/
def mkMap {E : Type} [DecidableEq E] (vals : List (E × String)) : Map E :=
  let v2n := vals.foldl (fun m p => insertKeep m p.1 p.2) []
  let n2v := v2n.foldl (fun m p => insertOver m p.2 p.1) []
  ⟨v2n, n2v⟩

/-- `Map::Result`: the value found for a name, plus a found flag. -/
structure Result (E : Type) where
  val : E
  found : Bool
deriving DecidableEq

/-- `Map::Name`: value-to-name lookup, unknown values give the sentinel. -/
def Map.Name {E : Type} [DecidableEq E] (m : Map E) (val : E) : String :=
  match assocFind m.valToName val with
  | some n => n
  | none => unknownStr

/-- `Map::Val`: name-to-value lookup; a missing name gives `found = false`
and the default-constructed value `E{}`. -/
def Map.Val {E : Type} [DecidableEq E] [Inhabited E] (m : Map E) (n : String) :
    Result E :=
  match assocFind m.nameToVal n with
  | some v => ⟨v, true⟩
  | none => ⟨default, false⟩

/-- `Map::Size`: number of entries of the value-to-name map. -/
def Map.Size {E : Type} [DecidableEq E] (m : Map E) : Nat :=
  m.valToName.length

end EnumNameMap

namespace CommandLine

/-- Stream whitespace for `istringstream` extraction (C locale `isspace`). -/
def isStreamSpace (c : Char) : Bool :=
  c = ' ' || c = '\t' || c = '\n' || c = Char.ofNat 11 || c = Char.ofNat 12 || c = '\r'

/-- Accumulate a decimal digit prefix, stopping at the first non-digit
(the rest of the token is left unread, as `operator>>` leaves it). -/
def digitsLoop : List Char → Nat → Nat
  | [], acc => acc
  | c :: rest, acc =>
    if c.isDigit then digitsLoop rest (acc * 10 + (c.toNat - 48)) else acc

/-- The value stored by `istringstream >> value` for an `int`: skip leading
whitespace, optional sign, digit prefix.  A failed extraction stores 0
(which is also what an explicit digit prefix of 0 stores). -/
def extractInt (l : List Char) : Int :=
  let t := l.dropWhile isStreamSpace
  match t with
  | [] => 0
  | c :: rest =>
    if c = '-' then -(Int.ofNat (digitsLoop rest 0))
    else if c = '+' then Int.ofNat (digitsLoop rest 0)
    else Int.ofNat (digitsLoop t 0)

/-- `Parser::readValueFrom<int>`: false for an empty token; otherwise the
extraction runs and `ss.bad()` is false, so the result is true and the value
is whatever the extraction stored.  The null-pointer argument case is handled
at each call site.  `value` is the variable's previous content (kept when the
function returns before extracting). -/
def readValueFromInt (arg : String) (value : Int) : Bool × Int :=
  if arg.toList = [] then (false, value)
  else (true, extractInt arg.toList)

/-- `Parser::readValueFrom(char const*, std::string&)`: the string overload
takes the whole token verbatim; only an empty token fails. -/
def readValueFromStr (arg : String) (value : String) : Bool × String :=
  if arg.toList = [] then (false, value)
  else (true, arg)

/-- Split a token at its first `=` (the `strchr(arg, '=')` step of
`Parser::Parse`): the name part before it, and the value part after it when
present. -/
def splitAtEq : List Char → List Char × Option (List Char)
  | [] => ([], none)
  | c :: rest =>
    if c = '=' then ([], some rest)
    else
      let q := splitAtEq rest
      (c :: q.1, q.2)

/-- Token splitting on `String`: name part and optional inline value. -/
def eqSplit (tok : String) : String × Option String :=
  match splitAtEq tok.toList with
  | (n, none) => (String.mk n, none)
  | (n, some v) => (String.mk n, some (String.mk v))

/-- The name part of a token (the whole token when it has no `=`). -/
def namePart (tok : String) : String := (eqSplit tok).1

/-- Does a token start with the option-prefix character, i.e. is its first
character a dash?  (`(*argv)[0] != '-'` — an empty token's first character is
the terminating NUL, so an empty token does not start with a dash.) -/
def startsWithDash (t : String) : Bool :=
  match t.toList with
  | [] => false
  | c :: _ => c = '-'

/-- The greedy list-consumption scan predicate: keep taking tokens while they
do not start with a dash. -/
def scanPred (t : String) : Bool := !startsWithDash t

/-- The per-variant state of an option (`Parser::Option`, `Parser::Value`,
`Parser::ValueList`, `Parser::EnumList`), holding the bound value or list.
`Option` (a switch) has no bound state. -/
inductive OptState
  | switch
  | valueInt (value : Int)
  | valueStr (value : String)
  | valueListInt (min : Nat) (values : List Int)
  | valueListStr (min : Nat) (values : List String)
  | enumListNat (min : Nat) (nameMap : EnumNameMap.Map Nat) (values : List Nat)
deriving DecidableEq

/-- An `IOpt`: short name, long name (each nullable), the `specified` flag,
and the variant state. -/
structure Opt where
  shortName : Option String
  longName : Option String
  specified : Bool
  state : OptState
deriving DecidableEq

/-- A junk option used as the out-of-range default of `getOptD`. -/
def defOpt : Opt := ⟨none, none, false, OptState.switch⟩

/-- Indexing into the registry list with a junk default (every use is
in-range). -/
def getOptD : List Opt → Nat → Opt
  | [], _ => defOpt
  | o :: _, 0 => o
  | _ :: rest, i + 1 => getOptD rest i

/-- Does this option register the given name (its short or long name equals
it)?  Registration skips null names. -/
def optHasName (o : Opt) (n : String) : Bool :=
  decide (o.shortName = some n) || decide (o.longName = some n)

/-- `Parser::Lookup` through the `argMap`: every option inserts its short and
long names with `operator[]`, so when several options register the same name
the last registration wins.  Returns the index of the owning option. -/
def lookupIdx : List Opt → String → Option Nat
  | [], _ => none
  | o :: rest, n =>
    match lookupIdx rest n with
    | some j => some (j + 1)
    | none => if optHasName o n then some 0 else none

/-- Set the `specified` flag of the option at an index
(`pOpt->specified = true`). -/
def setSpec : List Opt → Nat → List Opt
  | [], _ => []
  | o :: rest, 0 => ⟨o.shortName, o.longName, true, o.state⟩ :: rest
  | o :: rest, i + 1 => o :: setSpec rest i

/-- Store the post-`Consume` variant state back at an index. -/
def setState : List Opt → Nat → OptState → List Opt
  | [], _, _ => []
  | o :: rest, 0, st => ⟨o.shortName, o.longName, o.specified, st⟩ :: rest
  | o :: rest, i + 1, st => o :: setState rest i st

/-- Fill loop of `ValueList<int>::Consume`: `values` was cleared and resized to
the token count (all slots 0), then each token is read in order; the loop stops
at the first failing token, leaving the later slots at their resized default 0.
(A failing read also leaves its own slot untouched, hence still 0.) -/
def fillInt : List String → Bool × List Int
  | [] => (true, [])
  | t :: ts =>
    let r := readValueFromInt t 0
    if r.1 then
      let q := fillInt ts
      (q.1, r.2 :: q.2)
    else (false, r.2 :: List.replicate ts.length 0)

/-- Fill loop of `ValueList<std::string>::Consume`: as `fillInt`, with the
resized default being the empty string. -/
def fillStr : List String → Bool × List String
  | [] => (true, [])
  | t :: ts =>
    let r := readValueFromStr t ""
    if r.1 then
      let q := fillStr ts
      (q.1, r.2 :: q.2)
    else (false, r.2 :: List.replicate ts.length "")

/-- Fill loop of `EnumList::Consume`: `values` was cleared (and only reserved,
not resized), then each token is read as a string and looked up by name;
the loop stops at the first empty or unmapped token, leaving exactly the
already-pushed prefix in `values`. -/
def fillEnum (m : EnumNameMap.Map Nat) : List String → Bool × List Nat
  | [] => (true, [])
  | t :: ts =>
    if t.toList = [] then (false, [])
    else
      let r := m.Val t
      if r.found then
        let q := fillEnum m ts
        (q.1, r.val :: q.2)
      else (false, [])

/-- `IOpt::Consume` and its overrides, per variant.  Arguments: the variant
state, the inline `=value` (null when the token had no `=`), and the remaining
tokens (the cursor already points past the matched name).  Returns success,
the new variant state, and the remaining tokens after consumption.
- switch: the base implementation, consumes nothing, always true.
- `Value<T>`: rejects the inline form, then reads exactly the next token
  (failing when the argv list is exhausted, i.e. the C `*argv` is null).
- `ValueList<T>`: rejects the inline form, greedily scans tokens not starting
  with a dash, requires at least `min` of them, then clears/resizes/fills.
- `EnumList`: the source never examines `eqFormValue` here, so the inline
  value is silently ignored; otherwise as `ValueList` with name mapping. -/
def consume : OptState → Option String → List String → Bool × OptState × List String
  | OptState.switch, _, rest => (true, OptState.switch, rest)
  | OptState.valueInt v, eqv, rest =>
    if eqv.isSome then (false, OptState.valueInt v, rest)
    else
      match rest with
      | [] => (false, OptState.valueInt v, [])
      | t :: ts =>
        let r := readValueFromInt t v
        (r.1, OptState.valueInt r.2, ts)
  | OptState.valueStr v, eqv, rest =>
    if eqv.isSome then (false, OptState.valueStr v, rest)
    else
      match rest with
      | [] => (false, OptState.valueStr v, [])
      | t :: ts =>
        let r := readValueFromStr t v
        (r.1, OptState.valueStr r.2, ts)
  | OptState.valueListInt mn vs, eqv, rest =>
    if eqv.isSome then (false, OptState.valueListInt mn vs, rest)
    else
      let c := rest.takeWhile scanPred
      let rest2 := rest.dropWhile scanPred
      if c.length < mn then (false, OptState.valueListInt mn vs, rest2)
      else
        let q := fillInt c
        (q.1, OptState.valueListInt mn q.2, rest2)
  | OptState.valueListStr mn vs, eqv, rest =>
    if eqv.isSome then (false, OptState.valueListStr mn vs, rest)
    else
      let c := rest.takeWhile scanPred
      let rest2 := rest.dropWhile scanPred
      if c.length < mn then (false, OptState.valueListStr mn vs, rest2)
      else
        let q := fillStr c
        (q.1, OptState.valueListStr mn q.2, rest2)
  | OptState.enumListNat mn m vs, _, rest =>
    let c := rest.takeWhile scanPred
    let rest2 := rest.dropWhile scanPred
    if c.length < mn then (false, OptState.enumListNat mn m vs, rest2)
    else
      let q := fillEnum m c
      (q.1, OptState.enumListNat mn m q.2, rest2)

/-- The token loop of `Parser::Parse` (the `while (char const* arg = *argv)`
loop).  Each processed token strictly shrinks the remaining token list, which
the structural `fuel` argument makes explicit; callers pass the token count as
fuel, which is always sufficient.  Returns (no consumption failure, options,
positional args). -/
def parseLoop : Nat → List Opt → List String → List String →
    Bool × List Opt × List String
  | 0, opts, args, toks =>
    match toks with
    | [] => (true, opts, args)
    | _ :: _ => (false, opts, args)
  | fuel + 1, opts, args, toks =>
    match toks with
    | [] => (true, opts, args)
    | tok :: rest =>
      let ne := eqSplit tok
      match lookupIdx opts ne.1 with
      | none => parseLoop fuel opts (args ++ [ne.1]) rest
      | some i =>
        let opts2 := setSpec opts i
        let r := consume (getOptD opts2 i).state ne.2 rest
        let opts3 := setState opts2 i r.2.1
        if r.1 then parseLoop fuel opts3 args r.2.2
        else (false, opts3, args)

/-- The externally visible parser state: the validity flag `m_valid`, the
registered options (`is.list`, each carrying its own bound state), and the
positional arguments `is.args`. -/
structure ParserState where
  mValid : Bool
  opts : List Opt
  args : List String
deriving DecidableEq

/-- The base `Parser::Validate`: always true. -/
def defaultValidate : List Opt → List String → Bool := fun _ _ => true

/-- `Parser::Parse`: refuse immediately when `m_valid` is already true, else
skip `argv[0]`, run the token loop, and on loop success set `m_valid` from
the `Validate` hook (a parameter here, since it is virtual).  The loop result
(`r` in a hand-written version) is written out at each use site. -/
def Parse (validate : List Opt → List String → Bool) (st : ParserState)
    (argv : List String) : Bool × ParserState :=
  if st.mValid then (false, st)
  else
    if (parseLoop (argv.drop 1).length st.opts st.args (argv.drop 1)).1 then
      (validate (parseLoop (argv.drop 1).length st.opts st.args (argv.drop 1)).2.1
          (parseLoop (argv.drop 1).length st.opts st.args (argv.drop 1)).2.2,
       ⟨validate (parseLoop (argv.drop 1).length st.opts st.args (argv.drop 1)).2.1
          (parseLoop (argv.drop 1).length st.opts st.args (argv.drop 1)).2.2,
        (parseLoop (argv.drop 1).length st.opts st.args (argv.drop 1)).2.1,
        (parseLoop (argv.drop 1).length st.opts st.args (argv.drop 1)).2.2⟩)
    else
      (false, ⟨false,
        (parseLoop (argv.drop 1).length st.opts st.args (argv.drop 1)).2.1,
        (parseLoop (argv.drop 1).length st.opts st.args (argv.drop 1)).2.2⟩)

/-- Does this variant state belong to an `EnumList`? -/
def isEnumList : OptState → Bool
  | OptState.enumListNat _ _ _ => true
  | _ => false

/-- The names an option registers: its short and long name, skipping nulls. -/
def nameList (o : Opt) : List String :=
  o.shortName.toList ++ o.longName.toList

/-- Two options share no registered name (the static well-formedness the spec
places on the embedding program). -/
def disjointNames (a b : Opt) : Prop :=
  ∀ n ∈ nameList a, n ∉ nameList b

instance (a b : Opt) : Decidable (disjointNames a b) := by
  unfold disjointNames; infer_instance

/-- The greedy scan of a list option stops exactly here: either the input is
exhausted or the next token starts with a dash. -/
def stopsHere : List String → Bool
  | [] => true
  | t :: _ => startsWithDash t

end CommandLine

open CommandLine EnumNameMap

/-! ## String and token helper lemmas -/

theorem string_mk_toList (s : String) : String.mk s.toList = s := rfl

theorem string_toList_append (a b : String) :
    (a ++ b).toList = a.toList ++ b.toList := by
  cases a; cases b; rfl

theorem splitAtEq_no_eq (l : List Char) (h : '=' ∉ l) :
    splitAtEq l = (l, none) := by
  induction l with
  | nil => rfl
  | cons c rest ih =>
    simp only [List.mem_cons, not_or] at h
    have hc : ¬ c = '=' := fun hh => h.1 hh.symm
    simp [splitAtEq, hc, ih h.2]

theorem splitAtEq_append (l v : List Char) (h : '=' ∉ l) :
    splitAtEq (l ++ '=' :: v) = (l, some v) := by
  induction l with
  | nil => simp [splitAtEq]
  | cons c rest ih =>
    simp only [List.mem_cons, not_or] at h
    have hc : ¬ c = '=' := fun hh => h.1 hh.symm
    simp [splitAtEq, hc, ih h.2]

theorem eqSplit_no_eq (n : String) (h : '=' ∉ n.toList) :
    eqSplit n = (n, none) := by
  unfold eqSplit
  rw [splitAtEq_no_eq n.toList h]
  rfl

theorem eqSplit_append (n v : String) (h : '=' ∉ n.toList) :
    eqSplit (n ++ "=" ++ v) = (n, some v) := by
  unfold eqSplit
  have ht : (n ++ "=" ++ v).toList = n.toList ++ '=' :: v.toList := by
    rw [string_toList_append, string_toList_append, List.append_assoc]
    rfl
  rw [ht, splitAtEq_append n.toList v.toList h]
  rfl

/-! ## Helper lemmas about the registry and the token loop -/

theorem lookupIdx_lt (opts : List Opt) (n : String) (i : Nat)
    (h : lookupIdx opts n = some i) :
    i < opts.length ∧ optHasName (getOptD opts i) n = true := by
  induction opts generalizing i with
  | nil => simp [lookupIdx] at h
  | cons o rest ih =>
    simp only [lookupIdx] at h
    cases hr : lookupIdx rest n with
    | some j =>
      rw [hr] at h
      simp only [Option.some.injEq] at h
      subst h
      have := ih j hr
      simp only [List.length_cons, getOptD]
      exact ⟨by omega, this.2⟩
    | none =>
      rw [hr] at h
      by_cases ho : optHasName o n = true
      · simp [ho] at h
        subst h
        simpa [getOptD] using ho
      · simp [Bool.not_eq_true] at ho
        simp [ho] at h

theorem lookupIdx_none (opts : List Opt) (n : String)
    (h : lookupIdx opts n = none) :
    ∀ i, i < opts.length → optHasName (getOptD opts i) n = false := by
  induction opts with
  | nil => intro i hi; simp at hi
  | cons o rest ih =>
    simp only [lookupIdx] at h
    cases hr : lookupIdx rest n with
    | some j => rw [hr] at h; simp at h
    | none =>
      rw [hr] at h
      intro i hi
      cases i with
      | zero =>
        by_cases ho : optHasName o n = true
        · simp [ho] at h
        · simpa [getOptD, Bool.not_eq_true] using ho
      | succ i =>
        simp only [List.length_cons] at hi
        simpa [getOptD] using ih hr i (by omega)

theorem length_setSpec (opts : List Opt) (i : Nat) :
    (setSpec opts i).length = opts.length := by
  induction opts generalizing i with
  | nil => simp [setSpec]
  | cons o rest ih =>
    cases i with
    | zero => simp [setSpec]
    | succ i => simp [setSpec, ih]

theorem length_setState (opts : List Opt) (i : Nat) (st : OptState) :
    (setState opts i st).length = opts.length := by
  induction opts generalizing i with
  | nil => simp [setState]
  | cons o rest ih =>
    cases i with
    | zero => simp [setState]
    | succ i => simp [setState, ih]

theorem getOptD_setSpec_self (opts : List Opt) (i : Nat) (h : i < opts.length) :
    getOptD (setSpec opts i) i =
      ⟨(getOptD opts i).shortName, (getOptD opts i).longName, true,
        (getOptD opts i).state⟩ := by
  induction opts generalizing i with
  | nil => simp at h
  | cons o rest ih =>
    cases i with
    | zero => simp [setSpec, getOptD]
    | succ i =>
      simp only [List.length_cons] at h
      simpa [setSpec, getOptD] using ih i (by omega)

theorem getOptD_setSpec_ne (opts : List Opt) (i j : Nat) (h : i ≠ j) :
    getOptD (setSpec opts j) i = getOptD opts i := by
  induction opts generalizing i j with
  | nil => simp [setSpec]
  | cons o rest ih =>
    cases j with
    | zero =>
      cases i with
      | zero => exact absurd rfl h
      | succ i => simp [setSpec, getOptD]
    | succ j =>
      cases i with
      | zero => simp [setSpec, getOptD]
      | succ i => simpa [setSpec, getOptD] using ih i j (by omega)

theorem specified_setSpec_mono (opts : List Opt) (i j : Nat)
    (h : (getOptD opts i).specified = true) :
    (getOptD (setSpec opts j) i).specified = true := by
  induction opts generalizing i j with
  | nil => simpa [setSpec] using h
  | cons o rest ih =>
    cases j with
    | zero =>
      cases i with
      | zero => simp [setSpec, getOptD]
      | succ i => simpa [setSpec, getOptD] using h
    | succ j =>
      cases i with
      | zero => simpa [setSpec, getOptD] using h
      | succ i =>
        simp only [getOptD] at h
        simpa [setSpec, getOptD] using ih i j h

theorem specified_setState_eq (opts : List Opt) (j : Nat) (st : OptState) (i : Nat) :
    (getOptD (setState opts j st) i).specified = (getOptD opts i).specified := by
  induction opts generalizing i j with
  | nil => simp [setState]
  | cons o rest ih =>
    cases j with
    | zero =>
      cases i with
      | zero => simp [setState, getOptD]
      | succ i => simp [setState, getOptD]
    | succ j =>
      cases i with
      | zero => simp [setState, getOptD]
      | succ i => simpa [setState, getOptD] using ih j i

theorem parseLoop_specified_mono (fuel : Nat) :
    ∀ (opts : List Opt) (args toks : List String) (i : Nat),
    (getOptD opts i).specified = true →
    (getOptD (parseLoop fuel opts args toks).2.1 i).specified = true := by
  induction fuel with
  | zero =>
    intro opts args toks i h
    cases toks <;> simpa [parseLoop] using h
  | succ fuel ih =>
    intro opts args toks i h
    cases toks with
    | nil => simpa [parseLoop] using h
    | cons t rest =>
      simp only [parseLoop]
      cases hl : lookupIdx opts (eqSplit t).1 with
      | none => exact ih _ _ _ _ h
      | some j =>
        have h2 : (getOptD (setState (setSpec opts j) j
            (consume (getOptD (setSpec opts j) j).state (eqSplit t).2 rest).2.1) i).specified
            = true := by
          rw [specified_setState_eq]
          exact specified_setSpec_mono opts i j h
        by_cases hc :
            (consume (getOptD (setSpec opts j) j).state (eqSplit t).2 rest).1 = true
        · simp only [hc, if_true]
          exact ih _ _ _ _ h2
        · simp only [Bool.not_eq_true] at hc
          simpa [hc] using h2

theorem parseLoop_unmatched (toks : List String) :
    ∀ (fuel : Nat) (opts : List Opt) (args : List String),
    toks.length ≤ fuel →
    (∀ t ∈ toks, lookupIdx opts (namePart t) = none) →
    parseLoop fuel opts args toks = (true, opts, args ++ toks.map namePart) := by
  induction toks with
  | nil =>
    intro fuel opts args _ _
    cases fuel <;> simp [parseLoop]
  | cons t ts ih =>
    intro fuel opts args hf hm
    cases fuel with
    | zero => simp at hf
    | succ fuel =>
      have h1 : lookupIdx opts (eqSplit t).1 = none := hm t (by simp)
      have hlen : ts.length ≤ fuel := by
        simp only [List.length_cons] at hf; omega
      have ihx := ih fuel opts (args ++ [namePart t]) hlen
        (fun x hx => hm x (by simp [hx]))
      simp only [namePart] at ihx
      simp only [parseLoop, h1, ihx, List.map_cons, namePart,
        List.append_assoc, List.singleton_append]

/-! ## Claim C1 -/

/-- C1 counterexample: an unregistered `name=value` token is appended to the
positional list split, not unsplit — `foo=bar` lands as `foo`, losing the
`=` and the value text, contrary to the claim. -/
theorem claim1_counterexample :
    (Parse defaultValidate ⟨false, [], []⟩ ["prog", "foo=bar"]).2.args = ["foo"] ∧
    (Parse defaultValidate ⟨false, [], []⟩ ["prog", "foo=bar"]).2.args ≠ ["foo=bar"] := by
  decide

/-- C1 (amended): for every argv token whose name part (the text before the
first `=`, or the whole token when it has none) matches no registered option
name, the parser appends that name part — not the original unsplit token — to
the positional list; unrecognized tokens accumulate there in encounter order,
and the parse succeeds under the default validator. -/
theorem claim1_theorem (opts : List Opt) (argv : List String)
    (h : ∀ t ∈ argv.drop 1, lookupIdx opts (namePart t) = none) :
    Parse defaultValidate ⟨false, opts, []⟩ argv
      = (true, ⟨true, opts, (argv.drop 1).map namePart⟩) := by
  have hx := parseLoop_unmatched (argv.drop 1) (argv.drop 1).length opts [] le_rfl h
  unfold Parse
  rw [if_neg (by simp)]
  simp only [hx, defaultValidate, List.nil_append]
  simp

/-- C1 witness: a bare unregistered token and a `name=value` unregistered
token accumulate in encounter order, the latter stripped to its name part. -/
theorem claim1_witness :
    Parse defaultValidate
        ⟨false, [⟨some "-v", none, false, OptState.switch⟩], []⟩
        ["prog", "x", "foo=bar"]
      = (true, ⟨true, [⟨some "-v", none, false, OptState.switch⟩], ["x", "foo"]⟩) :=
  claim1_theorem _ _ (by decide)

/-! ## Claim C2 -/

/-- C2 counterexample: a Parser whose first Parse ended Invalid is not in a
protected state: a second Parse call does not fail-fast — it re-parses,
returns true, and alters the positional list (from empty to `["b"]`). -/
theorem claim2_counterexample :
    (Parse defaultValidate
        ⟨false, [⟨some "-c", none, false, OptState.valueInt 0⟩], []⟩
        ["prog", "-c"]).1 = false ∧
    (Parse defaultValidate
        ⟨false, [⟨some "-c", none, false, OptState.valueInt 0⟩], []⟩
        ["prog", "-c"]).2.args = [] ∧
    (Parse defaultValidate
        (Parse defaultValidate
          ⟨false, [⟨some "-c", none, false, OptState.valueInt 0⟩], []⟩
          ["prog", "-c"]).2
        ["prog", "b"]).1 = true ∧
    (Parse defaultValidate
        (Parse defaultValidate
          ⟨false, [⟨some "-c", none, false, OptState.valueInt 0⟩], []⟩
          ["prog", "-c"]).2
        ["prog", "b"]).2.args = ["b"] := by
  decide

/-- C2 (amended): only the Valid terminal state is protected — for every
Parser whose `m_valid` flag is true (a prior Parse ended Valid), a subsequent
Parse call returns failure immediately and leaves the entire state unchanged.
A Parser whose prior Parse ended Invalid has `m_valid = false` and is
re-parsed from its current state instead. -/
theorem claim2_theorem (validate : List Opt → List String → Bool)
    (st : ParserState) (argv : List String) (h : st.mValid = true) :
    Parse validate st argv = (false, st) := by
  simp [Parse, h]

/-- C2 witness: a concrete Valid-state parser refuses a new Parse and keeps
its state. -/
theorem claim2_witness :
    (⟨true, [], ["old"]⟩ : ParserState).mValid = true ∧
    Parse defaultValidate ⟨true, [], ["old"]⟩ ["prog", "x"]
      = (false, ⟨true, [], ["old"]⟩) :=
  ⟨rfl, claim2_theorem defaultValidate ⟨true, [], ["old"]⟩ ["prog", "x"] rfl⟩

/-! ## Claim C3 -/

/-- C3 (code bug): `readValueFrom` checks `ss.bad()` — which extraction
failures never set — instead of `ss.fail()`, so for a non-string type a token
that does not parse as T at all still succeeds (storing 0), and a token with
trailing garbage succeeds with the garbage ignored, contrary to the claim's
full-grammar requirement; only null/empty tokens fail.  The string overload
behaves as claimed (whole token verbatim, empty fails). -/
theorem claim3_code_accepts_unparsable :
    readValueFromInt "abc" 7 = (true, 0) ∧
    readValueFromInt "12abc" 7 = (true, 12) ∧
    readValueFromInt "" 7 = (false, 7) ∧
    readValueFromStr "hello" "" = (true, "hello") ∧
    readValueFromStr "" "d" = (false, "d") := by
  decide

/-! ## Claim C8 -/

/-- C8: whenever the token loop processes a token whose name part matches the
registered option at index `i`, the final option list has that option's
`specified` flag true — the flag is set at the moment of the match, before
`Consume` runs, so it survives a consumption failure (and anything the rest
of the parse does). -/
theorem claim8_theorem (fuel : Nat) (opts : List Opt) (args : List String)
    (tok : String) (rest : List String) (i : Nat)
    (h : lookupIdx opts (namePart tok) = some i) :
    (getOptD (parseLoop (fuel + 1) opts args (tok :: rest)).2.1 i).specified
      = true := by
  have hlt : i < opts.length := (lookupIdx_lt opts (namePart tok) i h).1
  have hself : (getOptD (setSpec opts i) i).specified = true := by
    rw [getOptD_setSpec_self opts i hlt]
  have h1 : lookupIdx opts (eqSplit tok).1 = some i := h
  simp only [parseLoop, h1]
  have h2 : (getOptD (setState (setSpec opts i) i
      (consume (getOptD (setSpec opts i) i).state (eqSplit tok).2 rest).2.1) i).specified
      = true := by
    rw [specified_setState_eq]; exact hself
  by_cases hc :
      (consume (getOptD (setSpec opts i) i).state (eqSplit tok).2 rest).1 = true
  · simp only [hc, if_true]
    exact parseLoop_specified_mono fuel _ _ _ _ h2
  · simp only [Bool.not_eq_true] at hc
    simpa [hc] using h2

/-- C8 witness: a `Value<int>` option matched at the end of argv (so its
`Consume` fails for want of a value token) still ends with `specified = true`
while the parse as a whole fails. -/
theorem claim8_witness :
    (getOptD (parseLoop (0 + 1) [⟨some "-c", none, false, OptState.valueInt 0⟩]
        [] ["-c"]).2.1 0).specified = true :=
  claim8_theorem 0 [⟨some "-c", none, false, OptState.valueInt 0⟩] [] "-c" [] 0
    (by decide)

theorem state_setSpec_eq (opts : List Opt) (j i : Nat) :
    (getOptD (setSpec opts j) i).state = (getOptD opts i).state := by
  induction opts generalizing i j with
  | nil => simp [setSpec]
  | cons o rest ih =>
    cases j with
    | zero =>
      cases i with
      | zero => simp [setSpec, getOptD]
      | succ i => simp [setSpec, getOptD]
    | succ j =>
      cases i with
      | zero => simp [setSpec, getOptD]
      | succ i => simpa [setSpec, getOptD] using ih j i

theorem consume_enumList_eqv (mn : Nat) (m : EnumNameMap.Map Nat)
    (vs : List Nat) (eqv : Option String) (rest : List String) :
    consume (OptState.enumListNat mn m vs) eqv rest
      = consume (OptState.enumListNat mn m vs) none rest := rfl

/-! ## Claim C4 -/

/-- C4 (code bug at the "unparsable as T" clause): for a `Value<int>` option,
`--name value` with a well-formed value binds the parsed value with
`specified = true`, the inline `--name=value` form is rejected (parse
invalid), and a missing or empty value token fails — but a token that does
not parse as int at all (`abc`) is accepted: the parse ends Valid with the
bound value 0, because `readValueFrom` checks `ss.bad()` instead of
`ss.fail()`. -/
theorem claim4_code_behaviour :
    Parse defaultValidate
        ⟨false, [⟨some "-c", some "--count", false, OptState.valueInt 0⟩], []⟩
        ["prog", "--count", "5"]
      = (true, ⟨true, [⟨some "-c", some "--count", true, OptState.valueInt 5⟩], []⟩) ∧
    (Parse defaultValidate
        ⟨false, [⟨some "-c", some "--count", false, OptState.valueInt 0⟩], []⟩
        ["prog", "--count=5"]).1 = false ∧
    (Parse defaultValidate
        ⟨false, [⟨some "-c", some "--count", false, OptState.valueInt 0⟩], []⟩
        ["prog", "--count"]).1 = false ∧
    (Parse defaultValidate
        ⟨false, [⟨some "-c", some "--count", false, OptState.valueInt 0⟩], []⟩
        ["prog", "--count", ""]).1 = false ∧
    Parse defaultValidate
        ⟨false, [⟨some "-c", some "--count", false, OptState.valueInt 0⟩], []⟩
        ["prog", "--count", "abc"]
      = (true, ⟨true, [⟨some "-c", some "--count", true, OptState.valueInt 0⟩], []⟩) := by
  decide

/-! ## Claim C5 -/

/-- C5 (code bug at the "fails to parse as T" clause): for a
`ValueList<int, 1>` option, consumption greedily takes the following tokens,
stops exactly at a token starting with the prefix character (`--other` is then
processed on its own), replaces the declared default `[7, 8]` entirely, and
fails when fewer than `min` tokens are collected — but a collected token that
does not parse as int (`abc`) is accepted (bound as 0, parse Valid) because
`readValueFrom` checks `ss.bad()` instead of `ss.fail()`. -/
theorem claim5_code_behaviour :
    Parse defaultValidate
        ⟨false, [⟨some "-n", none, false, OptState.valueListInt 1 [7, 8]⟩,
          ⟨some "--other", none, false, OptState.switch⟩], []⟩
        ["prog", "-n", "1", "2", "3"]
      = (true, ⟨true, [⟨some "-n", none, true, OptState.valueListInt 1 [1, 2, 3]⟩,
          ⟨some "--other", none, false, OptState.switch⟩], []⟩) ∧
    Parse defaultValidate
        ⟨false, [⟨some "-n", none, false, OptState.valueListInt 1 [7, 8]⟩,
          ⟨some "--other", none, false, OptState.switch⟩], []⟩
        ["prog", "-n", "1", "--other", "2"]
      = (true, ⟨true, [⟨some "-n", none, true, OptState.valueListInt 1 [1]⟩,
          ⟨some "--other", none, true, OptState.switch⟩], ["2"]⟩) ∧
    (Parse defaultValidate
        ⟨false, [⟨some "-n", none, false, OptState.valueListInt 1 [7, 8]⟩], []⟩
        ["prog", "-n"]).1 = false ∧
    Parse defaultValidate
        ⟨false, [⟨some "-n", none, false, OptState.valueListInt 1 [7, 8]⟩], []⟩
        ["prog", "-n", "abc"]
      = (true, ⟨true, [⟨some "-n", none, true, OptState.valueListInt 1 [0]⟩], []⟩) := by
  decide

/-! ## Claim C6 -/

/-- C6 counterexample: an `EnumList` option given in inline `name=value` form
does not make `Consume` return false — the whole parse ends Valid, the inline
value (`red`) is silently dropped, and consumption proceeds on the following
tokens (`green` is bound). -/
theorem claim6_counterexample :
    Parse defaultValidate
        ⟨false, [⟨some "-e", none, false,
          OptState.enumListNat 1 (EnumNameMap.mkMap [(0, "red"), (1, "green")]) []⟩], []⟩
        ["prog", "-e=red", "green"]
      = (true, ⟨true, [⟨some "-e", none, true,
          OptState.enumListNat 1 (EnumNameMap.mkMap [(0, "red"), (1, "green")]) [1]⟩], []⟩) := by
  decide

/-- C6 (amended): unlike `ScalarList`, `EnumList::Consume` never examines the
inline value — the `=value` text is ignored entirely, neither parsed nor an
error, and parsing `name=value rest...` behaves exactly like parsing
`name rest...` whenever `name` (which may not itself contain `=`) resolves to
an `EnumList` option. -/
theorem claim6_theorem (validate : List Opt → List String → Bool)
    (st : ParserState) (prog n v : String) (rest : List String) (i : Nat)
    (hn : '=' ∉ n.toList)
    (hl : lookupIdx st.opts n = some i)
    (he : isEnumList (getOptD st.opts i).state = true) :
    Parse validate st (prog :: (n ++ "=" ++ v) :: rest)
      = Parse validate st (prog :: n :: rest) := by
  unfold Parse
  by_cases hv : st.mValid = true
  · rw [if_pos hv, if_pos hv]
  · rw [if_neg hv, if_neg hv]
    have key : parseLoop (rest.length + 1) st.opts st.args ((n ++ "=" ++ v) :: rest)
        = parseLoop (rest.length + 1) st.opts st.args (n :: rest) := by
      simp only [parseLoop, eqSplit_append n v hn, eqSplit_no_eq n hn, hl]
      have hs : (getOptD (setSpec st.opts i) i).state = (getOptD st.opts i).state :=
        state_setSpec_eq st.opts i i
      cases hst : (getOptD st.opts i).state with
      | enumListNat mn m vs =>
        rw [hs, hst, consume_enumList_eqv]
      | switch => rw [hst] at he; simp [isEnumList] at he
      | valueInt a => rw [hst] at he; simp [isEnumList] at he
      | valueStr a => rw [hst] at he; simp [isEnumList] at he
      | valueListInt a b => rw [hst] at he; simp [isEnumList] at he
      | valueListStr a b => rw [hst] at he; simp [isEnumList] at he
    simp only [List.drop_succ_cons, List.drop_zero, List.length_cons]
    rw [key]

/-- C6 witness: the concrete end-to-end equivalence of `-e=red green` and
`-e green` for an `EnumList` option. -/
theorem claim6_witness :
    Parse defaultValidate
        ⟨false, [⟨some "-e", none, false,
          OptState.enumListNat 1 (EnumNameMap.mkMap [(0, "red"), (1, "green")]) []⟩], []⟩
        ["prog", "-e=red", "green"]
      = Parse defaultValidate
        ⟨false, [⟨some "-e", none, false,
          OptState.enumListNat 1 (EnumNameMap.mkMap [(0, "red"), (1, "green")]) []⟩], []⟩
        ["prog", "-e", "green"] :=
  claim6_theorem defaultValidate _ "prog" "-e" "red" ["green"] 0
    (by decide) (by decide) (by decide)

/-! ## Claim C7 infrastructure -/

theorem getOptD_eq_get (opts : List Opt) (i : Nat) (h : i < opts.length) :
    getOptD opts i = opts.get ⟨i, h⟩ := by
  induction opts generalizing i with
  | nil => simp at h
  | cons o rest ih =>
    cases i with
    | zero => rfl
    | succ i => simpa [getOptD] using ih i (by simpa using h)

theorem getOptD_mem (opts : List Opt) (i : Nat) (h : i < opts.length) :
    getOptD opts i ∈ opts := by
  rw [getOptD_eq_get opts i h]
  exact List.get_mem opts i h

theorem optHasName_mem (o : Opt) (n : String) :
    optHasName o n = true ↔ n ∈ nameList o := by
  unfold optHasName nameList
  rw [List.mem_append, Option.mem_toList, Option.mem_toList, Option.mem_def,
    Option.mem_def, Bool.or_eq_true, decide_eq_true_eq, decide_eq_true_eq]

theorem names_setSpec (opts : List Opt) (j k : Nat) :
    nameList (getOptD (setSpec opts j) k) = nameList (getOptD opts k) := by
  induction opts generalizing j k with
  | nil => simp [setSpec]
  | cons o rest ih =>
    cases j with
    | zero =>
      cases k with
      | zero => simp [setSpec, getOptD, nameList]
      | succ k => simp [setSpec, getOptD]
    | succ j =>
      cases k with
      | zero => simp [setSpec, getOptD]
      | succ k => simpa [setSpec, getOptD] using ih j k

theorem names_setState (opts : List Opt) (j : Nat) (st : OptState) (k : Nat) :
    nameList (getOptD (setState opts j st) k) = nameList (getOptD opts k) := by
  induction opts generalizing j k with
  | nil => simp [setState]
  | cons o rest ih =>
    cases j with
    | zero =>
      cases k with
      | zero => simp [setState, getOptD, nameList]
      | succ k => simp [setState, getOptD]
    | succ j =>
      cases k with
      | zero => simp [setState, getOptD]
      | succ k => simpa [setState, getOptD] using ih j k

theorem hasName_setSpec (opts : List Opt) (j k : Nat) (n : String) :
    optHasName (getOptD (setSpec opts j) k) n = optHasName (getOptD opts k) n := by
  rw [Bool.eq_iff_iff, optHasName_mem, optHasName_mem, names_setSpec]

theorem hasName_setState (opts : List Opt) (j : Nat) (st : OptState) (k : Nat)
    (n : String) :
    optHasName (getOptD (setState opts j st) k) n = optHasName (getOptD opts k) n := by
  rw [Bool.eq_iff_iff, optHasName_mem, optHasName_mem, names_setState]

theorem state_setState_self (opts : List Opt) (j : Nat) (st : OptState)
    (h : j < opts.length) :
    (getOptD (setState opts j st) j).state = st := by
  induction opts generalizing j with
  | nil => simp at h
  | cons o rest ih =>
    cases j with
    | zero => simp [setState, getOptD]
    | succ j =>
      simp only [List.length_cons] at h
      simpa [setState, getOptD] using ih j (by omega)

theorem state_setState_ne (opts : List Opt) (j : Nat) (st : OptState) (k : Nat)
    (h : k ≠ j) :
    (getOptD (setState opts j st) k).state = (getOptD opts k).state := by
  induction opts generalizing j k with
  | nil => simp [setState]
  | cons o rest ih =>
    cases j with
    | zero =>
      cases k with
      | zero => exact absurd rfl h
      | succ k => simp [setState, getOptD]
    | succ j =>
      cases k with
      | zero => simp [setState, getOptD]
      | succ k => simpa [setState, getOptD] using ih j k (by omega)

theorem lookupIdx_isSome (opts : List Opt) (n : String) (i : Nat)
    (h : i < opts.length) (ho : optHasName (getOptD opts i) n = true) :
    ∃ j, lookupIdx opts n = some j := by
  induction opts generalizing i with
  | nil => simp at h
  | cons o rest ih =>
    simp only [lookupIdx]
    cases hr : lookupIdx rest n with
    | some j => exact ⟨j + 1, rfl⟩
    | none =>
      cases i with
      | zero =>
        have ho2 : optHasName o n = true := ho
        exact ⟨0, by rw [if_pos ho2]⟩
      | succ i =>
        obtain ⟨j, hj⟩ := ih i (by simpa using h) (by simpa [getOptD] using ho)
        rw [hj] at hr
        cases hr

theorem uniq_of_pairwise (opts : List Opt) (hp : List.Pairwise disjointNames opts) :
    ∀ i j n, i < opts.length → j < opts.length →
    optHasName (getOptD opts i) n = true → optHasName (getOptD opts j) n = true →
    i = j := by
  intro i j n hi hj hni hnj
  by_contra hne
  rcases Nat.lt_or_ge i j with hlt | hge
  · have hr := List.pairwise_iff_get.mp hp ⟨i, hi⟩ ⟨j, hj⟩ (Fin.mk_lt_mk.mpr hlt)
    rw [← getOptD_eq_get, ← getOptD_eq_get] at hr
    exact hr n ((optHasName_mem _ _).mp hni) ((optHasName_mem _ _).mp hnj)
  · have hlt2 : j < i := by omega
    have hr := List.pairwise_iff_get.mp hp ⟨j, hj⟩ ⟨i, hi⟩ (Fin.mk_lt_mk.mpr hlt2)
    rw [← getOptD_eq_get, ← getOptD_eq_get] at hr
    exact hr n ((optHasName_mem _ _).mp hnj) ((optHasName_mem _ _).mp hni)

theorem parseLoop_switch_specified (toks : List String) :
    ∀ (fuel : Nat) (opts : List Opt) (args : List String) (i : Nat),
    toks.length ≤ fuel →
    (∀ k, k < opts.length → (getOptD opts k).state = OptState.switch) →
    (∀ k l n, k < opts.length → l < opts.length →
      optHasName (getOptD opts k) n = true → optHasName (getOptD opts l) n = true →
      k = l) →
    i < opts.length →
    (getOptD (parseLoop fuel opts args toks).2.1 i).specified
      = ((getOptD opts i).specified
          || toks.any (fun t => optHasName (getOptD opts i) (namePart t))) := by
  induction toks with
  | nil =>
    intro fuel opts args i _ _ _ _
    cases fuel <;> simp [parseLoop]
  | cons t ts ih =>
    intro fuel opts args i hf hsw huni hi
    cases fuel with
    | zero => simp at hf
    | succ fuel =>
      have hlen : ts.length ≤ fuel := by
        simp only [List.length_cons] at hf; omega
      simp only [parseLoop]
      cases hl : lookupIdx opts (eqSplit t).1 with
      | none =>
        have hnone : optHasName (getOptD opts i) (eqSplit t).1 = false :=
          lookupIdx_none opts _ hl i hi
        rw [ih fuel opts _ i hlen hsw huni hi]
        simp [List.any_cons, namePart, hnone]
      | some j =>
        have hj := lookupIdx_lt opts _ j hl
        have creduce : consume (getOptD (setSpec opts j) j).state (eqSplit t).2 ts
            = (true, OptState.switch, ts) := by
          rw [state_setSpec_eq]
          rw [hsw j hj.1]
          rfl
        show (getOptD
            (if (consume (getOptD (setSpec opts j) j).state (eqSplit t).2 ts).1 = true then
              parseLoop fuel
                (setState (setSpec opts j) j
                  (consume (getOptD (setSpec opts j) j).state (eqSplit t).2 ts).2.1) args
                (consume (getOptD (setSpec opts j) j).state (eqSplit t).2 ts).2.2
            else
              (false, setState (setSpec opts j) j
                (consume (getOptD (setSpec opts j) j).state (eqSplit t).2 ts).2.1,
               args)).2.1
          i).specified
          = ((getOptD opts i).specified
              || (t :: ts).any fun t2 => optHasName (getOptD opts i) (namePart t2))
        rw [creduce]
        show (getOptD (parseLoop fuel (setState (setSpec opts j) j OptState.switch)
            args ts).2.1 i).specified
          = ((getOptD opts i).specified
              || (t :: ts).any fun t2 => optHasName (getOptD opts i) (namePart t2))
        have hlen3 : (setState (setSpec opts j) j OptState.switch).length
            = opts.length := by
          rw [length_setState, length_setSpec]
        have hstates3 : ∀ k, k < (setState (setSpec opts j) j OptState.switch).length →
            (getOptD (setState (setSpec opts j) j OptState.switch) k).state
              = OptState.switch := by
          intro k hk
          rw [hlen3] at hk
          by_cases hkj : k = j
          · subst hkj
            exact state_setState_self _ _ _ (by rw [length_setSpec]; exact hj.1)
          · rw [state_setState_ne _ _ _ _ hkj, state_setSpec_eq]
            exact hsw k hk
        have hnames3 : ∀ k n2,
            optHasName (getOptD (setState (setSpec opts j) j OptState.switch) k) n2
              = optHasName (getOptD opts k) n2 := by
          intro k n2
          rw [hasName_setState, hasName_setSpec]
        have huni3 : ∀ k l n2,
            k < (setState (setSpec opts j) j OptState.switch).length →
            l < (setState (setSpec opts j) j OptState.switch).length →
            optHasName (getOptD (setState (setSpec opts j) j OptState.switch) k) n2 = true →
            optHasName (getOptD (setState (setSpec opts j) j OptState.switch) l) n2 = true →
            k = l := by
          intro k l n2 hk hl2 h1 h2
          rw [hlen3] at hk hl2
          rw [hnames3] at h1 h2
          exact huni k l n2 hk hl2 h1 h2
        rw [ih fuel _ args i hlen hstates3 huni3 (by rw [hlen3]; exact hi)]
        rw [specified_setState_eq]
        simp only [hnames3]
        by_cases hij : i = j
        · subst hij
          have hspec : (getOptD (setSpec opts i) i).specified = true := by
            rw [getOptD_setSpec_self opts i hi]
          have hmatch : optHasName (getOptD opts i) (namePart t) = true := hj.2
          rw [hspec]
          simp [List.any_cons, hmatch]
        · have hspec : (getOptD (setSpec opts j) i).specified
              = (getOptD opts i).specified := by
            rw [getOptD_setSpec_ne opts i j hij]
          have hmatch : optHasName (getOptD opts i) (namePart t) = false := by
            cases h2 : optHasName (getOptD opts i) (namePart t) with
            | true => exact absurd (huni i j _ hi hj.1 h2 hj.2) hij
            | false => rfl
          rw [hspec]
          simp [List.any_cons, hmatch]

theorem parse_opts_eq (validate : List Opt → List String → Bool)
    (st : ParserState) (argv : List String) (h : st.mValid = false) :
    (Parse validate st argv).2.opts
      = (parseLoop (argv.drop 1).length st.opts st.args (argv.drop 1)).2.1 := by
  unfold Parse
  rw [h]
  rw [if_neg (by simp)]
  by_cases hr :
      (parseLoop (argv.drop 1).length st.opts st.args (argv.drop 1)).1 = true
  · rw [if_pos hr]
  · rw [if_neg hr]

theorem parse_opts_nil (validate : List Opt → List String → Bool)
    (opts : List Opt) (argv : List String) :
    (Parse validate ⟨false, opts, []⟩ argv).2.opts
      = (parseLoop (argv.drop 1).length opts [] (argv.drop 1)).2.1 :=
  parse_opts_eq validate ⟨false, opts, []⟩ argv rfl

/-! ## Claim C7 -/

/-- C7 counterexample: a Switch supplied in inline form `-v=x` ends the parse
with `specified = true`, although neither `-v` nor `--verbose` appears as a
bare token (without an `=value` part) anywhere in argv — the parser matches
the name part of every token, refuting the claimed iff. -/
theorem claim7_counterexample :
    (getOptD (Parse defaultValidate
        ⟨false, [⟨some "-v", some "--verbose", false, OptState.switch⟩], []⟩
        ["prog", "-v=x"]).2.opts 0).specified = true ∧
    ¬ ∃ t ∈ ["prog", "-v=x"], t = "-v" ∨ t = "--verbose" := by
  decide

/-- C7 (amended): a declared Switch starts with `specified = false`, and in a
registry of Switch-only options with pairwise-disjoint names, after parsing
its `specified` flag is true iff some argv token's name part (text before the
first `=`, or the whole token) equals its short or long name.  (In mixed
registries a further caveat applies: a token consumed as another option's
value is never matched.) -/
theorem claim7_theorem (opts : List Opt) (argv : List String) (i : Nat)
    (hsw : ∀ o ∈ opts, o.state = OptState.switch)
    (hspec : ∀ o ∈ opts, o.specified = false)
    (hp : List.Pairwise disjointNames opts)
    (hi : i < opts.length) :
    ((getOptD (Parse defaultValidate ⟨false, opts, []⟩ argv).2.opts i).specified = true
      ↔ ∃ t ∈ argv.drop 1, optHasName (getOptD opts i) (namePart t) = true) := by
  have hsw2 : ∀ k, k < opts.length → (getOptD opts k).state = OptState.switch :=
    fun k hk => hsw _ (getOptD_mem opts k hk)
  have huni := uniq_of_pairwise opts hp
  have key := parseLoop_switch_specified (argv.drop 1) (argv.drop 1).length opts [] i
    le_rfl hsw2 huni hi
  have hspec2 : (getOptD opts i).specified = false :=
    hspec _ (getOptD_mem opts i hi)
  rw [hspec2] at key
  rw [parse_opts_nil defaultValidate opts argv]
  rw [key]
  simp [List.any_eq_true]

/-- C7 witness: two switches, one hit through its name part in `-v=x`, the
other never mentioned. -/
theorem claim7_witness :
    ((getOptD (Parse defaultValidate
        ⟨false, [⟨some "-v", some "--verbose", false, OptState.switch⟩,
          ⟨some "-q", none, false, OptState.switch⟩], []⟩
        ["prog", "a", "-v=x", "b"]).2.opts 0).specified = true
      ↔ ∃ t ∈ ["a", "-v=x", "b"],
          optHasName (getOptD [⟨some "-v", some "--verbose", false, OptState.switch⟩,
            ⟨some "-q", none, false, OptState.switch⟩] 0) (namePart t) = true) :=
  claim7_theorem _ _ 0 (by decide) (by decide) (by decide) (by decide)

/-! ## Claim C9 infrastructure -/

theorem assocFind_eq_none {K V : Type} [DecidableEq K] (l : List (K × V)) (k : K) :
    assocFind l k = none ↔ k ∉ l.map Prod.fst := by
  induction l with
  | nil => simp [assocFind]
  | cons p rest ih =>
    by_cases h : p.1 = k
    · simp [assocFind, h]
    · simp only [assocFind, if_neg h, ih, List.map_cons, List.mem_cons, not_or]
      constructor
      · intro hh
        exact ⟨fun he => h he.symm, hh⟩
      · intro hh
        exact hh.2

theorem assocFind_of_mem {K V : Type} [DecidableEq K] (l : List (K × V))
    (hk : (l.map Prod.fst).Nodup) (k : K) (v : V) (h : (k, v) ∈ l) :
    assocFind l k = some v := by
  induction l with
  | nil => simp at h
  | cons p rest ih =>
    rcases List.mem_cons.mp h with h1 | h1
    · rw [← h1]
      simp [assocFind]
    · have hk2 : (rest.map Prod.fst).Nodup := by
        rw [List.map_cons] at hk
        exact (List.nodup_cons.mp hk).2
      have hnotin : p.1 ∉ rest.map Prod.fst := by
        rw [List.map_cons] at hk
        exact (List.nodup_cons.mp hk).1
      have hne : ¬ p.1 = k := by
        intro he
        apply hnotin
        rw [he]
        exact List.mem_map_of_mem Prod.fst h1
      simp [assocFind, hne, ih hk2 h1]

theorem insertKeep_absent {K V : Type} [DecidableEq K] (l : List (K × V))
    (k : K) (v : V) (h : assocFind l k = none) :
    insertKeep l k v = l ++ [(k, v)] := by
  unfold insertKeep
  rw [h]

theorem insertOver_absent {K V : Type} [DecidableEq K] (l : List (K × V))
    (k : K) (v : V) (h : assocFind l k = none) :
    insertOver l k v = l ++ [(k, v)] := by
  unfold insertOver
  rw [h]

theorem buildAppend {K V : Type} [DecidableEq K]
    (f : List (K × V) → K → V → List (K × V))
    (hf : ∀ l k v, assocFind l k = none → f l k v = l ++ [(k, v)]) :
    ∀ (l acc : List (K × V)), ((acc ++ l).map Prod.fst).Nodup →
    l.foldl (fun m p => f m p.1 p.2) acc = acc ++ l := by
  intro l
  induction l with
  | nil =>
    intro acc _
    simp
  | cons p rest ih =>
    intro acc hnd
    have hfind : assocFind acc p.1 = none := by
      rw [assocFind_eq_none]
      intro hmem
      have hmem2 : p.1 ∈ (p :: rest).map Prod.fst := by simp
      rw [List.map_append] at hnd
      exact (List.nodup_append.mp hnd).2.2 hmem hmem2
    have hnd2 : (((acc ++ [p]) ++ rest).map Prod.fst).Nodup := by
      rw [List.append_assoc]
      simpa using hnd
    simp only [List.foldl_cons]
    rw [hf acc p.1 p.2 hfind]
    rw [ih (acc ++ [p]) hnd2]
    simp

theorem mkMap_valToName {E : Type} [DecidableEq E] (pairs : List (E × String))
    (hv : (pairs.map Prod.fst).Nodup) :
    (mkMap pairs).valToName = pairs := by
  show pairs.foldl (fun m p => insertKeep m p.1 p.2) [] = pairs
  have h := buildAppend insertKeep insertKeep_absent pairs [] (by simpa using hv)
  simpa using h

theorem mkMap_nameToVal {E : Type} [DecidableEq E] (pairs : List (E × String))
    (hv : (pairs.map Prod.fst).Nodup) (hn : (pairs.map Prod.snd).Nodup) :
    (mkMap pairs).nameToVal = pairs.map Prod.swap := by
  have h1 := mkMap_valToName pairs hv
  show ((mkMap pairs).valToName).foldl (fun m p => insertOver m p.2 p.1) []
    = pairs.map Prod.swap
  rw [h1]
  have h2 : pairs.foldl (fun m p => insertOver m p.2 p.1) []
      = (pairs.map Prod.swap).foldl (fun m q => insertOver m q.1 q.2) [] := by
    simp [List.foldl_map]
  rw [h2]
  have hkeys : (((pairs.map Prod.swap)).map Prod.fst).Nodup := by
    simpa [List.map_map, Function.comp_def] using hn
  have h3 := buildAppend insertOver insertOver_absent (pairs.map Prod.swap) []
    (by simpa using hkeys)
  simpa using h3

/-! ## Claim C9 -/

/-- C9: a NameMap built from N pairs with pairwise-distinct values and
pairwise-distinct names has `Size() = N`, `Name` returns the paired name for
every declared value, `Val` returns the paired value with `found = true` for
every declared name, and `Name(Val(x).val)` round-trips back to `x` for every
declared name `x`. -/
theorem claim9_theorem {E : Type} [DecidableEq E] [Inhabited E]
    (pairs : List (E × String))
    (hv : (pairs.map Prod.fst).Nodup) (hn : (pairs.map Prod.snd).Nodup) :
    (mkMap pairs).Size = pairs.length ∧
    ∀ p ∈ pairs,
      (mkMap pairs).Name p.1 = p.2 ∧
      (mkMap pairs).Val p.2 = ⟨p.1, true⟩ ∧
      (mkMap pairs).Name ((mkMap pairs).Val p.2).val = p.2 := by
  have h1 := mkMap_valToName pairs hv
  have h2 := mkMap_nameToVal pairs hv hn
  have hkeys : (((pairs.map Prod.swap)).map Prod.fst).Nodup := by
    simpa [List.map_map, Function.comp_def] using hn
  constructor
  · show (mkMap pairs).valToName.length = pairs.length
    rw [h1]
  · intro p hp
    have hname : (mkMap pairs).Name p.1 = p.2 := by
      unfold EnumNameMap.Map.Name
      rw [h1, assocFind_of_mem pairs hv p.1 p.2 hp]
    have hval : (mkMap pairs).Val p.2 = ⟨p.1, true⟩ := by
      unfold EnumNameMap.Map.Val
      rw [h2, assocFind_of_mem (pairs.map Prod.swap) hkeys p.2 p.1
        (List.mem_map_of_mem Prod.swap hp)]
    refine ⟨hname, hval, ?_⟩
    rw [hval]
    exact hname

/-- C9 witness: the concrete three-colour map round-trips and has size 3. -/
theorem claim9_witness :
    (mkMap [((0 : Nat), "red"), (1, "green"), (2, "blue")]).Size
        = [((0 : Nat), "red"), (1, "green"), (2, "blue")].length ∧
    ∀ p ∈ [((0 : Nat), "red"), (1, "green"), (2, "blue")],
      (mkMap [((0 : Nat), "red"), (1, "green"), (2, "blue")]).Name p.1 = p.2 ∧
      (mkMap [((0 : Nat), "red"), (1, "green"), (2, "blue")]).Val p.2 = ⟨p.1, true⟩ ∧
      (mkMap [((0 : Nat), "red"), (1, "green"), (2, "blue")]).Name
        ((mkMap [((0 : Nat), "red"), (1, "green"), (2, "blue")]).Val p.2).val = p.2 :=
  claim9_theorem [((0 : Nat), "red"), (1, "green"), (2, "blue")]
    (by decide) (by decide)

/-! ## Claim C10 infrastructure -/

theorem scan_split (c rest : List String)
    (hc : ∀ t ∈ c, startsWithDash t = false)
    (hs : stopsHere rest = true) :
    (c ++ rest).takeWhile scanPred = c ∧ (c ++ rest).dropWhile scanPred = rest := by
  induction c with
  | nil =>
    cases rest with
    | nil => simp
    | cons r rs =>
      have hr : startsWithDash r = true := hs
      simp [List.takeWhile_cons, List.dropWhile_cons, scanPred, hr]
  | cons t ts ih =>
    have ht : startsWithDash t = false := hc t (by simp)
    have ihx := ih (fun x hx => hc x (by simp [hx]))
    simp [List.takeWhile_cons, List.dropWhile_cons, scanPred, ht, ihx.1, ihx.2]

theorem fillInt_fail (good : List String) (bad : String) (tail : List String)
    (hg : ∀ t ∈ good, ¬ t.toList = [])
    (hb : bad.toList = []) :
    fillInt (good ++ bad :: tail)
      = (false, good.map (fun t => extractInt t.toList)
          ++ 0 :: List.replicate tail.length 0) := by
  have hb2 : bad.data = [] := hb
  induction good with
  | nil => simp [fillInt, readValueFromInt, hb2]
  | cons t ts ih =>
    have ht : ¬ t.toList = [] := hg t (by simp)
    have ht2 : ¬ t.data = [] := ht
    have ihx := ih (fun x hx => hg x (by simp [hx]))
    simp [fillInt, readValueFromInt, ht2, ihx]

theorem fillEnum_fail (m : EnumNameMap.Map Nat) (good : List String) (bad : String)
    (tail : List String)
    (hg : ∀ t ∈ good, ¬ t.toList = [] ∧ (m.Val t).found = true)
    (hb : bad.toList = [] ∨ (m.Val bad).found = false) :
    fillEnum m (good ++ bad :: tail) = (false, good.map (fun t => (m.Val t).val)) := by
  induction good with
  | nil =>
    rcases hb with hb | hb
    · have hb2 : bad.data = [] := hb
      simp [fillEnum, hb2]
    · by_cases hbe : bad.data = []
      · simp [fillEnum, hbe]
      · simp [fillEnum, hbe, hb]
  | cons t ts ih =>
    have ht := hg t (by simp)
    have ht2 : ¬ t.data = [] := ht.1
    have ihx := ih (fun x hx => hg x (by simp [hx]))
    simp [fillEnum, ht2, ht.2, ihx]

/-! ## Claim C10 -/

/-- C10: when a `ValueList` or `EnumList` consumption passes the minimum-arity
check but fails on a collected token (one `readValueFrom` rejects — an empty
token — or, for `EnumList`, one the name map does not contain), the stored
list has already been cleared and partially refilled when the failure is
reported: a `ValueList` holds the parsed prefix followed by resize-default
zeros, an `EnumList` holds exactly the mapped prefix, and the declared default
list `d` is not restored in either case. -/
theorem claim10_theorem :
    (∀ (mn : Nat) (d : List Int) (good : List String) (bad : String)
        (tail rest : List String),
      (∀ t ∈ good, startsWithDash t = false ∧ ¬ t.toList = []) →
      bad.toList = [] →
      (∀ t ∈ tail, startsWithDash t = false) →
      stopsHere rest = true →
      mn ≤ (good ++ bad :: tail).length →
      consume (OptState.valueListInt mn d) none ((good ++ bad :: tail) ++ rest)
        = (false, OptState.valueListInt mn
            (good.map (fun t => extractInt t.toList) ++ 0 :: List.replicate tail.length 0),
           rest)) ∧
    (∀ (mn : Nat) (m : EnumNameMap.Map Nat) (d : List Nat) (good : List String)
        (bad : String) (tail rest : List String),
      (∀ t ∈ good, startsWithDash t = false ∧ ¬ t.toList = [] ∧ (m.Val t).found = true) →
      startsWithDash bad = false →
      (bad.toList = [] ∨ (m.Val bad).found = false) →
      (∀ t ∈ tail, startsWithDash t = false) →
      stopsHere rest = true →
      mn ≤ (good ++ bad :: tail).length →
      consume (OptState.enumListNat mn m d) none ((good ++ bad :: tail) ++ rest)
        = (false, OptState.enumListNat mn m (good.map (fun t => (m.Val t).val)),
           rest)) := by
  constructor
  · intro mn d good bad tail rest hg hb htail hstop hmn
    have hbd : startsWithDash bad = false := by
      unfold startsWithDash
      rw [hb]
    have hall : ∀ t ∈ good ++ bad :: tail, startsWithDash t = false := by
      intro t ht
      rcases List.mem_append.mp ht with h1 | h1
      · exact (hg t h1).1
      · rcases List.mem_cons.mp h1 with h2 | h2
        · rw [h2]; exact hbd
        · exact htail t h2
    have hsplit := scan_split (good ++ bad :: tail) rest hall hstop
    simp only [consume, Option.isSome_none, Bool.false_eq_true, if_false]
    rw [hsplit.1, hsplit.2]
    rw [if_neg (by omega)]
    rw [fillInt_fail good bad tail (fun t ht => (hg t ht).2) hb]
  · intro mn m d good bad tail rest hg hbd hb htail hstop hmn
    have hall : ∀ t ∈ good ++ bad :: tail, startsWithDash t = false := by
      intro t ht
      rcases List.mem_append.mp ht with h1 | h1
      · exact (hg t h1).1
      · rcases List.mem_cons.mp h1 with h2 | h2
        · rw [h2]; exact hbd
        · exact htail t h2
    have hsplit := scan_split (good ++ bad :: tail) rest hall hstop
    simp only [consume]
    rw [hsplit.1, hsplit.2]
    rw [if_neg (by omega)]
    rw [fillEnum_fail m good bad tail (fun t ht => ⟨(hg t ht).2.1, (hg t ht).2.2⟩) hb]

/-- C10 witness: a `ValueList<int, 1>` with default `[5]` failing on an empty
second token ends holding `[1, 0, 0]`, and an `EnumList` with default `[1]`
failing on an unmapped second token ends holding `[0]` — neither default
survives. -/
theorem claim10_witness :
    consume (OptState.valueListInt 1 [5]) none ((["1"] ++ "" :: ["2"]) ++ ["-x"])
      = (false, OptState.valueListInt 1
          (["1"].map (fun t => extractInt t.toList) ++ 0 :: List.replicate ["2"].length 0),
         ["-x"]) ∧
    consume (OptState.enumListNat 1 (mkMap [((0 : Nat), "red"), (1, "green")]) [1]) none
        ((["red"] ++ "purple" :: []) ++ [])
      = (false, OptState.enumListNat 1 (mkMap [((0 : Nat), "red"), (1, "green")])
          (["red"].map (fun t => ((mkMap [((0 : Nat), "red"), (1, "green")]).Val t).val)),
         []) :=
  ⟨claim10_theorem.1 1 [5] ["1"] "" ["2"] ["-x"]
      (by decide) (by decide) (by decide) (by decide) (by decide),
   claim10_theorem.2 1 (mkMap [((0 : Nat), "red"), (1, "green")]) [1] ["red"] "purple" [] []
      (by decide) (by decide) (by decide) (by decide) (by decide) (by decide)⟩
